import Mathlib

/-! Shallow embedding of the father bundless dts builder.

Shallow embedding of `src/builder/bundless/dts/index.ts` (the bundless d.ts
builder): the cache-key scheme, the intercepted `tsHost.writeFile` sink, the
cache seeding, the emit driver `getDeclarations`, and the configuration
sanitization it performs.  The external TypeScript compiler is treated as an
oracle: the sequence of writes it performs and the diagnostics it reports are
inputs to the model.  The filesystem is modelled as a total map from paths to
contents (`fs : String → String`), matching `fs.readFileSync` on existing
files.
-/

namespace FatherDts

/-! ### Path helpers (model Node `path.basename`, `path.resolve` and
`winPath` from `@umijs/utils`, which are external to the repository) -/

/-- Model of `winPath` from `@umijs/utils`: replace every backslash by a
forward slash. -/
def winPath (p : String) : String :=
  String.mk (p.data.map fun c => if c = '\\' then '/' else c)

/-- Auxiliary for `basename`: keep the characters of the last `/`-separated
component, scanning left to right with an accumulator. -/
def basenameAux : List Char → List Char → List Char
  | current, [] => current.reverse
  | current, c :: rest =>
    if c = '/' then basenameAux [] rest else basenameAux (c :: current) rest

/-- Model of Node `path.posix.basename`: strip trailing slashes, then keep
everything after the last slash. -/
def basename (p : String) : String :=
  String.mk (basenameAux [] (p.data.reverse.dropWhile (fun c => c = '/')).reverse)

/-- Split a character list on `/`, used by the model of `path.resolve`. -/
def splitSegsAux : List Char → List Char → List String
  | current, [] => [String.mk current.reverse]
  | current, c :: rest =>
    if c = '/' then String.mk current.reverse :: splitSegsAux [] rest
    else splitSegsAux (c :: current) rest

/-- Resolve `.`, `..` and empty segments of an absolute path; the first
argument is the stack of already-resolved segments, most recent first. -/
def resolveSegs : List String → List String → List String
  | acc, [] => acc.reverse
  | acc, s :: rest =>
    if s = "" ∨ s = "." then resolveSegs acc rest
    else if s = ".." then resolveSegs (acc.drop 1) rest
    else resolveSegs (s :: acc) rest

def joinSlash : List String → String
  | [] => ""
  | [s] => s
  | s :: rest => s ++ "/" ++ joinSlash rest

/-- True when the path starts with `/`. -/
def isAbsolute (p : String) : Bool :=
  match p.data with
  | '/' :: _ => true
  | _ => false

/-- Model of Node `path.resolve(base, target)` for an absolute `base`
(the source passes `tsconfig.options.pathsBasePath`, which is absolute):
join unless `target` is absolute, then normalize `.`/`..`/empty segments. -/
def pathResolve (base target : String) : String :=
  let joined := if isAbsolute target then target else base ++ "/" ++ target
  "/" ++ joinSlash (resolveSegs [] (splitSegsAux [] joined.data))

/-- Bool prefix test on strings (model of `String.prototype.startsWith`). -/
def strStartsWith (s pre : String) : Bool :=
  List.isPrefixOf pre.data s.data

/-! ### Resolved compiler options (`tsconfig.options`) -/

/-- The fields of `tsconfig.options` that the source reads or mutates,
plus `rest` standing for every other (passthrough) resolved option. -/
structure TsOptions where
  declaration : Option Bool
  noEmit : Option Bool
  declarationMap : Option Bool
  incremental : Option Bool
  tsBuildInfoFile : Option String
  pathsBasePath : String
  paths : List (String × List String)
  rest : String

def serializeBoolOpt : Option Bool → String
  | none => "undefined"
  | some true => "true"
  | some false => "false"

def serializeStrOpt : Option String → String
  | none => "undefined"
  | some s => s

def serializePaths : List (String × List String) → String
  | [] => ""
  | (k, ts) :: restPaths => k ++ "=" ++ joinSlash ts ++ ";" ++ serializePaths restPaths

/-- Modelled from the spec: `JSON.stringify(tsconfig.options)`, the
"serialization of the full resolved configuration" used inside every cache
key.  JSON encoding itself is external to the repository; this model encodes
every field of `TsOptions` into one string, so in particular the serialized
form is built from the sanitized `paths` list. -/
def serializeOptions (o : TsOptions) : String :=
  "declaration=" ++ serializeBoolOpt o.declaration ++
  ",noEmit=" ++ serializeBoolOpt o.noEmit ++
  ",declarationMap=" ++ serializeBoolOpt o.declarationMap ++
  ",incremental=" ++ serializeBoolOpt o.incremental ++
  ",tsBuildInfoFile=" ++ serializeStrOpt o.tsBuildInfoFile ++
  ",pathsBasePath=" ++ o.pathsBasePath ++
  ",paths=" ++ serializePaths o.paths ++
  ",rest=" ++ o.rest

/-! ### Cache keys (source lines 103-114 and 147-153) -/

/-- One cache key: `[file, getContentHash(readFileSync(file)),
JSON.stringify(tsconfig.options)].join(':')`.  `fs` maps a path to the file's
content and `hash` models `getContentHash` (defined in `src/builder/utils`,
outside the embedded file; the spec calls it the content hash). -/
def mkCacheKey (fs : String → String) (cfg : String) (hash : String → String)
    (file : String) : String :=
  file ++ ":" ++ hash (fs file) ++ ":" ++ cfg

/-- The `cacheKeys` record built by `inputFiles.reduce`: one key per input
file (later duplicates overwrite with the identical value, so a first-match
association list is an exact model). -/
def cacheKeysOf (inputFiles : List String) (fs : String → String) (cfg : String)
    (hash : String → String) : List (String × String) :=
  inputFiles.map fun f => (f, mkCacheKey fs cfg hash f)

/-! ### Artifacts and the intercepted write sink -/

/-- One entry of `output` / of a cache list: `{ file, content, sourceFile }`. -/
structure Artifact where
  file : String
  content : String
  sourceFile : String
deriving DecidableEq, Repr

/-- One call of the compiler on the write sink: the target path, the content
and `sourceFiles?.[0].fileName` (absent when the compiler passes no source
files). -/
structure WriteEvent where
  fileName : String
  content : String
  sourceFile : Option String
deriving DecidableEq, Repr

/-- The originating source of a write, defaulting to the empty string; only
used under the hypothesis that the write is attributable. -/
def writeSource (w : WriteEvent) : String :=
  w.sourceFile.getD ""

/-- The artifact the sink builds for an attributable write:
`{ file: path.basename(fileName), content, sourceFile }`. -/
def retOf (w : WriteEvent) : Artifact :=
  ⟨basename w.fileName, w.content, writeSource w⟩

/-- Bool membership (model of `Array.prototype.includes` on strings). -/
def memB : List String → String → Bool
  | [], _ => false
  | x :: restL, s => x == s || memB restL s

/-- The upsert of `output.findIndex` / `output.splice(index, 1, ret)` /
`output.push(ret)`: replace the first entry with the same
`(file, sourceFile)` pair in place, or append when there is none. -/
def upsert : List Artifact → Artifact → List Artifact
  | [], ret => [ret]
  | a :: restL, ret =>
    if a.file == ret.file && a.sourceFile == ret.sourceFile then ret :: restL
    else a :: upsert restL ret

/-- Does some artifact of the list carry the given `(file, sourceFile)`
pair? -/
def pairMem (fl src : String) : List Artifact → Bool
  | [] => false
  | a :: restL => (a.file == fl && a.sourceFile == src) || pairMem fl src restL

/-- At most one artifact per `(file, sourceFile)` pair. -/
def distinctPairs : List Artifact → Bool
  | [] => true
  | a :: restL => !pairMem a.file a.sourceFile restL && distinctPairs restL

/-- First-match association-list lookup (JS plain-object read). -/
def assocLookup {α : Type} : List (String × α) → String → Option α
  | [], _ => none
  | (k, v) :: restL, s => if k == s then some v else assocLookup restL s

/-- A persistent cache / the in-memory `cacheRets` record: key to ordered
artifact list, in insertion order (JS string-keyed object). -/
abbrev CacheStore := List (String × List Artifact)

/-- Lookup defaulting to the empty list (`cache.getSync(key, '')` with a miss
skipped by the caller behaves the same as an empty list). -/
def lookupD (m : CacheStore) (k : String) : List Artifact :=
  (assocLookup m k).getD []

/-- `cacheRets[cacheKey] ??= []; cacheRets[cacheKey].push(ret)`: append to the
list at the key, creating the key at the end on first use (JS insertion
order). -/
def appendAt : CacheStore → String → Artifact → CacheStore
  | [], k, a => [(k, [a])]
  | (k', l) :: restL, k, a =>
    if k' == k then (k', l ++ [a]) :: restL else (k', l) :: appendAt restL k a

/-- `cache.setSync(key, value)`: overwrite the entry, or append a new one. -/
def storeSet : CacheStore → String → List Artifact → CacheStore
  | [], k, v => [(k, v)]
  | (k', v') :: restL, k, v =>
    if k' == k then (k, v) :: restL else (k', v') :: storeSet restL k v

/-- `Object.keys(cacheRets).forEach(key => cache.setSync(key, cacheRets[key]))`. -/
def persistCache (store : CacheStore) (entries : CacheStore) : CacheStore :=
  entries.foldl (fun st e => storeSet st e.1 e.2) store

/-- The mutable state the intercepted sink updates: the `output` array, the
`cacheRets` record, and the direct `fsExtra.writeFileSync` calls made for the
incremental-state file. -/
structure InterceptState where
  output : List Artifact
  cacheRets : CacheStore
  buildInfoWrites : List (String × String)
deriving DecidableEq, Repr

/-- The intercepted `tsHost.writeFile` (source lines 117-158).  A write to the
configured `tsBuildInfoFile` is written directly (recorded in
`buildInfoWrites`); an attributable write is upserted into `output` only when
its source file is an input, and always appended to `cacheRets` under
`cacheKeys[sourceFile] || [sourceFile, getContentHash(...), JSON.stringify(
options)].join(':')`; a write with no identifiable source file leaves the
state unchanged. -/
def writeFile (inputFiles : List String) (cacheKeys : List (String × String))
    (opts : TsOptions) (fs hash : String → String)
    (st : InterceptState) (w : WriteEvent) : InterceptState :=
  if opts.tsBuildInfoFile = some w.fileName then
    { st with buildInfoWrites := st.buildInfoWrites ++ [(w.fileName, w.content)] }
  else
    match w.sourceFile with
    | none => st
    | some sourceFile =>
      let ret : Artifact := ⟨basename w.fileName, w.content, sourceFile⟩
      let output :=
        if memB inputFiles sourceFile then upsert st.output ret else st.output
      let cacheKey :=
        (assocLookup cacheKeys sourceFile).getD
          (mkCacheKey fs (serializeOptions opts) hash sourceFile)
      { output := output
        cacheRets := appendAt st.cacheRets cacheKey ret
        buildInfoWrites := st.buildInfoWrites }

/-- The cache seeding loop (source lines 161-166): for each input file, a hit
for its cache key is spread onto `output` before the compiler runs. -/
def seedOutput (store : CacheStore) (cacheKeys : List (String × String))
    (inputFiles : List String) : List Artifact :=
  inputFiles.foldl
    (fun out f =>
      out ++ ((assocLookup cacheKeys f).bind fun k => assocLookup store k).getD [])
    []

/-- Result of one emit pass: the returned value or the thrown error, the cache
store after the pass, the direct incremental-state writes, and the
`logger.error` lines issued for diagnostics. -/
structure EmitOutcome where
  result : Except String (List Artifact)
  store : CacheStore
  buildInfoWrites : List (String × String)
  loggedDiags : List String
deriving Repr

/-- One emit pass (source lines 102-212 after configuration handling):
compute the cache keys, seed `output` from cache hits, feed every compiler
write through the intercepted sink, then either log every diagnostic and
throw the single aggregate error, or persist `cacheRets` and return
`output`.  `writes` and `diags` are what the external compiler produced. -/
def runEmit (store : CacheStore) (inputFiles : List String) (opts : TsOptions)
    (fs hash : String → String) (writes : List WriteEvent)
    (diags : List String) : EmitOutcome :=
  let cfg := serializeOptions opts
  let cacheKeys := cacheKeysOf inputFiles fs cfg hash
  let seeded := seedOutput store cacheKeys inputFiles
  let st := writes.foldl (writeFile inputFiles cacheKeys opts fs hash)
    ⟨seeded, [], []⟩
  if diags = [] then
    ⟨Except.ok st.output, persistCache store st.cacheRets, st.buildInfoWrites, []⟩
  else
    ⟨Except.error "Declaration generation failed.", store, st.buildInfoWrites, diags⟩

/-- The artifact list of a successful outcome (empty after a throw). -/
def outputOf (o : EmitOutcome) : List Artifact :=
  match o.result with
  | Except.ok l => l
  | Except.error _ => []

def isOkB (r : Except String (List Artifact)) : Bool :=
  match r with
  | Except.ok _ => true
  | Except.error _ => false

/-! ### Configuration handling in `getDeclarations` (source lines 49-100) -/

/-- Development defaulting (source lines 71-77): with `NODE_ENV ===
'development'`, truthy `declaration` and `declarationMap !== false`, turn
`declarationMap` on. -/
def devDefaultOptions (dev : Bool) (o : TsOptions) : TsOptions :=
  if dev ∧ o.declaration = some true ∧ o.declarationMap ≠ some false then
    { o with declarationMap := some true }
  else o

/-- Alias stripping (source lines 80-92): keep a `paths` entry only when
`path.resolve(pathsBasePath, target[0])` stays under `cwd` after `winPath`
normalization; entries resolving outside are deleted. -/
def sanitizePaths (cwd : String) (o : TsOptions) : TsOptions :=
  { o with
    paths := o.paths.filter fun p =>
      strStartsWith (winPath (pathResolve o.pathsBasePath (p.2.headD "")))
        (winPath cwd ++ "/") }

/-- Incremental defaulting (source lines 94-100): with caching enabled and
`incremental` not configured, enable it and point `tsBuildInfoFile` into the
tsc cache directory. -/
def incrementalDefaultOptions (enableCache : Bool) (tscCacheDir : String)
    (o : TsOptions) : TsOptions :=
  if enableCache ∧ o.incremental = none then
    { o with
      incremental := some true
      tsBuildInfoFile := some (tscCacheDir ++ "/tsc.tsbuildinfo") }
  else o

/-- The options actually handed to the compiler host, the cache-key
serialization and the write sink: development defaulting, then alias
stripping, then incremental defaulting, in source order. -/
def resolvedOptions (cwd : String) (dev enableCache : Bool) (tscCacheDir : String)
    (o : TsOptions) : TsOptions :=
  incrementalDefaultOptions enableCache tscCacheDir
    (sanitizePaths cwd (devDefaultOptions dev o))

/-- Parsed tsconfig: diagnostics of the parse plus the resolved options. -/
structure Tsconfig where
  errors : List String
  options : TsOptions

/-- Result of a whole `getDeclarations` call. -/
structure DriverResult where
  result : Except String (List Artifact)
  store : CacheStore
  buildInfoWrites : List (String × String)
  loggedDiags : List String
  warnedNoEmit : Bool
  invokedCompiler : Bool

/-- The driver `getDeclarations` (source lines 31-213): no tsconfig returns
the empty output; parse errors throw; truthy `declaration` together with
`noEmit === true` warns and returns the empty output without touching the
compiler; otherwise the sanitized options feed one `runEmit` pass. -/
def getDeclarations (inputFiles : List String) (cwd : String)
    (tsconfig : Option Tsconfig) (dev enableCache : Bool) (tscCacheDir : String)
    (fs hash : String → String) (store : CacheStore)
    (writes : List WriteEvent) (diags : List String) : DriverResult :=
  match tsconfig with
  | none => ⟨Except.ok [], store, [], [], false, false⟩
  | some tc =>
    if tc.errors ≠ [] then
      ⟨Except.error "Error parsing tsconfig.json content", store, [], [], false, false⟩
    else if tc.options.declaration = some true ∧ tc.options.noEmit = some true then
      ⟨Except.ok [], store, [], [], true, false⟩
    else
      let o := resolvedOptions cwd dev enableCache tscCacheDir tc.options
      let e := runEmit store inputFiles o fs hash writes diags
      ⟨e.result, e.store, e.buildInfoWrites, e.loggedDiags, false, true⟩

/-! ### Unfolding lemmas for the write sink -/

theorem writeFile_buildInfo (inputFiles : List String)
    (cacheKeys : List (String × String)) (opts : TsOptions)
    (fs hash : String → String) (st : InterceptState) (w : WriteEvent)
    (hb : opts.tsBuildInfoFile = some w.fileName) :
    writeFile inputFiles cacheKeys opts fs hash st w =
      { st with buildInfoWrites := st.buildInfoWrites ++ [(w.fileName, w.content)] } := by
  simp [writeFile, hb]

theorem writeFile_unattributed (inputFiles : List String)
    (cacheKeys : List (String × String)) (opts : TsOptions)
    (fs hash : String → String) (st : InterceptState) (w : WriteEvent)
    (hb : opts.tsBuildInfoFile ≠ some w.fileName) (hs : w.sourceFile = none) :
    writeFile inputFiles cacheKeys opts fs hash st w = st := by
  simp [writeFile, hb, hs]

theorem writeFile_attributed (inputFiles : List String)
    (cacheKeys : List (String × String)) (opts : TsOptions)
    (fs hash : String → String) (st : InterceptState) (w : WriteEvent)
    (s : String) (hb : opts.tsBuildInfoFile ≠ some w.fileName)
    (hs : w.sourceFile = some s) :
    writeFile inputFiles cacheKeys opts fs hash st w =
      { output :=
          if memB inputFiles s then upsert st.output ⟨basename w.fileName, w.content, s⟩
          else st.output
        cacheRets :=
          appendAt st.cacheRets
            ((assocLookup cacheKeys s).getD
              (mkCacheKey fs (serializeOptions opts) hash s))
            ⟨basename w.fileName, w.content, s⟩
        buildInfoWrites := st.buildInfoWrites } := by
  simp [writeFile, hb, hs]

theorem assocLookup_cacheKeysOf_getD (inputFiles : List String)
    (fs : String → String) (cfg : String) (hash : String → String) (s : String) :
    (assocLookup (cacheKeysOf inputFiles fs cfg hash) s).getD
        (mkCacheKey fs cfg hash s) = mkCacheKey fs cfg hash s := by
  induction inputFiles with
  | nil => rfl
  | cons f rest ih =>
    simp only [cacheKeysOf, List.map_cons, assocLookup]
    by_cases h : f = s
    · subst h; simp
    · simp only [beq_eq_false_iff_ne, ne_eq, h, not_false_eq_true, if_neg,
        beq_iff_eq]
      exact ih

/-! ### Sample concrete values used by the witnesses -/

def sampleOpts : TsOptions :=
  ⟨some true, none, none, some true, some "/p/cache/tsc.tsbuildinfo", "/p", [], "r"⟩

def sampleFs : String → String := fun _ => "content"

def emptyIntercept : InterceptState := ⟨[], [], []⟩

/-! ### Claims about the write sink -/

/-- Claim C2: For every attributable write whose originating source file is not
in the requested input set, the artifact is appended to the cache entry keyed
by that source file's cache key but the `output` collection is unchanged;
writes whose source file is in the input set are additionally upserted into
`output`. -/
theorem c2_scoping (inputFiles : List String) (opts : TsOptions)
    (fs hash : String → String) (st : InterceptState) (w : WriteEvent)
    (s : String) (hb : opts.tsBuildInfoFile ≠ some w.fileName)
    (hs : w.sourceFile = some s) :
    (writeFile inputFiles (cacheKeysOf inputFiles fs (serializeOptions opts) hash)
        opts fs hash st w).cacheRets =
      appendAt st.cacheRets (mkCacheKey fs (serializeOptions opts) hash s)
        ⟨basename w.fileName, w.content, s⟩ ∧
    (memB inputFiles s = false →
      (writeFile inputFiles (cacheKeysOf inputFiles fs (serializeOptions opts) hash)
          opts fs hash st w).output = st.output) ∧
    (memB inputFiles s = true →
      (writeFile inputFiles (cacheKeysOf inputFiles fs (serializeOptions opts) hash)
          opts fs hash st w).output =
        upsert st.output ⟨basename w.fileName, w.content, s⟩) := by
  rw [writeFile_attributed _ _ _ _ _ _ _ s hb hs]
  refine ⟨?_, ?_, ?_⟩
  · rw [assocLookup_cacheKeysOf_getD]
  · intro h; simp [h]
  · intro h; simp [h]

/-- Witness for `c2_scoping` at a concrete non-input write. -/
theorem c2_scoping_witness :
    ((⟨"/p/es/dep.d.ts", "dts", some "dep.ts"⟩ : WriteEvent).sourceFile
        = some "dep.ts") ∧
    memB ["a.ts"] "dep.ts" = false ∧
    ((writeFile ["a.ts"]
        (cacheKeysOf ["a.ts"] sampleFs (serializeOptions sampleOpts) id)
        sampleOpts sampleFs id emptyIntercept
        ⟨"/p/es/dep.d.ts", "dts", some "dep.ts"⟩).cacheRets =
      appendAt emptyIntercept.cacheRets
        (mkCacheKey sampleFs (serializeOptions sampleOpts) id "dep.ts")
        ⟨basename "/p/es/dep.d.ts", "dts", "dep.ts"⟩ ∧
    (memB ["a.ts"] "dep.ts" = false →
      (writeFile ["a.ts"]
          (cacheKeysOf ["a.ts"] sampleFs (serializeOptions sampleOpts) id)
          sampleOpts sampleFs id emptyIntercept
          ⟨"/p/es/dep.d.ts", "dts", some "dep.ts"⟩).output = emptyIntercept.output) ∧
    (memB ["a.ts"] "dep.ts" = true →
      (writeFile ["a.ts"]
          (cacheKeysOf ["a.ts"] sampleFs (serializeOptions sampleOpts) id)
          sampleOpts sampleFs id emptyIntercept
          ⟨"/p/es/dep.d.ts", "dts", some "dep.ts"⟩).output =
        upsert emptyIntercept.output ⟨basename "/p/es/dep.d.ts", "dts", "dep.ts"⟩)) :=
  ⟨rfl, by decide,
    c2_scoping ["a.ts"] sampleOpts sampleFs id emptyIntercept
      ⟨"/p/es/dep.d.ts", "dts", some "dep.ts"⟩ "dep.ts" (by decide) rfl⟩

/-- Claim C3: A write whose target path is the configured incremental-state file
is written directly to that path (recorded in `buildInfoWrites`) and never
contributes to `output` or to any cache entry. -/
theorem c3_incremental_state_isolation (inputFiles : List String)
    (cacheKeys : List (String × String)) (opts : TsOptions)
    (fs hash : String → String) (st : InterceptState) (w : WriteEvent)
    (hb : opts.tsBuildInfoFile = some w.fileName) :
    (writeFile inputFiles cacheKeys opts fs hash st w).output = st.output ∧
    (writeFile inputFiles cacheKeys opts fs hash st w).cacheRets = st.cacheRets ∧
    (writeFile inputFiles cacheKeys opts fs hash st w).buildInfoWrites =
      st.buildInfoWrites ++ [(w.fileName, w.content)] := by
  rw [writeFile_buildInfo _ _ _ _ _ _ _ hb]
  exact ⟨rfl, rfl, rfl⟩

/-- Witness for `c3_incremental_state_isolation` at the configured
incremental-state path. -/
theorem c3_incremental_state_isolation_witness :
    sampleOpts.tsBuildInfoFile = some "/p/cache/tsc.tsbuildinfo" ∧
    ((writeFile ["a.ts"] [] sampleOpts sampleFs id emptyIntercept
        ⟨"/p/cache/tsc.tsbuildinfo", "blob", none⟩).output = emptyIntercept.output ∧
    (writeFile ["a.ts"] [] sampleOpts sampleFs id emptyIntercept
        ⟨"/p/cache/tsc.tsbuildinfo", "blob", none⟩).cacheRets =
      emptyIntercept.cacheRets ∧
    (writeFile ["a.ts"] [] sampleOpts sampleFs id emptyIntercept
        ⟨"/p/cache/tsc.tsbuildinfo", "blob", none⟩).buildInfoWrites =
      emptyIntercept.buildInfoWrites ++ [("/p/cache/tsc.tsbuildinfo", "blob")]) :=
  ⟨rfl, c3_incremental_state_isolation ["a.ts"] [] sampleOpts sampleFs id
    emptyIntercept ⟨"/p/cache/tsc.tsbuildinfo", "blob", none⟩ rfl⟩

/-- Claim C9: A write that is not the incremental-state file and carries no
identifiable originating source file is silently dropped: the sink returns
the state unchanged (no `output` entry, no cache append, no direct write, and
no error — the function is total). -/
theorem c9_unattributed_write_dropped (inputFiles : List String)
    (cacheKeys : List (String × String)) (opts : TsOptions)
    (fs hash : String → String) (st : InterceptState) (w : WriteEvent)
    (hb : opts.tsBuildInfoFile ≠ some w.fileName) (hs : w.sourceFile = none) :
    writeFile inputFiles cacheKeys opts fs hash st w = st :=
  writeFile_unattributed inputFiles cacheKeys opts fs hash st w hb hs

/-- Witness for `c9_unattributed_write_dropped` at a concrete unattributed
write. -/
theorem c9_unattributed_write_dropped_witness :
    (sampleOpts.tsBuildInfoFile ≠ some "/p/es/ghost.d.ts") ∧
    writeFile ["a.ts"] [] sampleOpts sampleFs id emptyIntercept
      ⟨"/p/es/ghost.d.ts", "g", none⟩ = emptyIntercept :=
  ⟨by decide,
    c9_unattributed_write_dropped ["a.ts"] [] sampleOpts sampleFs id
      emptyIntercept ⟨"/p/es/ghost.d.ts", "g", none⟩ (by decide) rfl⟩

/-- Claim C10: The stored output file name of an artifact is only the basename
of the path the compiler wrote, and deduplication identity is the
`(basename, source file)` pair: two writes to different paths with equal
basenames from the same input source file leave exactly one `output` entry,
with the later content, while the cache entry records both artifacts under
their basenames. -/
theorem c10_basename_identity (inputFiles : List String) (opts : TsOptions)
    (fs hash : String → String) (w1 w2 : WriteEvent) (s : String)
    (h1 : w1.sourceFile = some s) (h2 : w2.sourceFile = some s)
    (hw : w1.fileName ≠ w2.fileName)
    (hbase : basename w1.fileName = basename w2.fileName)
    (hb1 : opts.tsBuildInfoFile ≠ some w1.fileName)
    (hb2 : opts.tsBuildInfoFile ≠ some w2.fileName)
    (hin : memB inputFiles s = true) :
    (List.foldl
        (writeFile inputFiles (cacheKeysOf inputFiles fs (serializeOptions opts) hash)
          opts fs hash)
        emptyIntercept [w1, w2]).output =
      [⟨basename w2.fileName, w2.content, s⟩] ∧
    lookupD
      (List.foldl
        (writeFile inputFiles (cacheKeysOf inputFiles fs (serializeOptions opts) hash)
          opts fs hash)
        emptyIntercept [w1, w2]).cacheRets
      (mkCacheKey fs (serializeOptions opts) hash s) =
      [⟨basename w1.fileName, w1.content, s⟩, ⟨basename w2.fileName, w2.content, s⟩] := by
  have e1 := writeFile_attributed inputFiles
    (cacheKeysOf inputFiles fs (serializeOptions opts) hash) opts fs hash
    emptyIntercept w1 s hb1 h1
  have e2 := writeFile_attributed inputFiles
    (cacheKeysOf inputFiles fs (serializeOptions opts) hash) opts fs hash
    (writeFile inputFiles (cacheKeysOf inputFiles fs (serializeOptions opts) hash)
      opts fs hash emptyIntercept w1) w2 s hb2 h2
  simp only [List.foldl_cons, List.foldl_nil]
  rw [e1] at e2 ⊢
  rw [e2]
  simp only [emptyIntercept, hin, if_true, assocLookup_cacheKeysOf_getD]
  constructor
  · simp [upsert, hbase]
  · simp [appendAt, lookupD, assocLookup]

/-- Witness for `c10_basename_identity`: two writes into different
directories with the same basename from the same input file. -/
theorem c10_basename_identity_witness :
    basename "/p/es/a.d.ts" = basename "/p/lib/a.d.ts" ∧
    ("/p/es/a.d.ts" : String) ≠ "/p/lib/a.d.ts" ∧
    ((List.foldl
        (writeFile ["a.ts"] (cacheKeysOf ["a.ts"] sampleFs (serializeOptions sampleOpts) id)
          sampleOpts sampleFs id)
        emptyIntercept
        [⟨"/p/es/a.d.ts", "first", some "a.ts"⟩,
         ⟨"/p/lib/a.d.ts", "second", some "a.ts"⟩]).output =
      [⟨basename "/p/lib/a.d.ts", "second", "a.ts"⟩] ∧
    lookupD
      (List.foldl
        (writeFile ["a.ts"] (cacheKeysOf ["a.ts"] sampleFs (serializeOptions sampleOpts) id)
          sampleOpts sampleFs id)
        emptyIntercept
        [⟨"/p/es/a.d.ts", "first", some "a.ts"⟩,
         ⟨"/p/lib/a.d.ts", "second", some "a.ts"⟩]).cacheRets
      (mkCacheKey sampleFs (serializeOptions sampleOpts) id "a.ts") =
      [⟨basename "/p/es/a.d.ts", "first", "a.ts"⟩,
       ⟨basename "/p/lib/a.d.ts", "second", "a.ts"⟩]) :=
  ⟨by decide, by decide,
    c10_basename_identity ["a.ts"] sampleOpts sampleFs id
      ⟨"/p/es/a.d.ts", "first", some "a.ts"⟩
      ⟨"/p/lib/a.d.ts", "second", some "a.ts"⟩ "a.ts" rfl rfl (by decide)
      (by decide) (by decide) (by decide) (by decide)⟩

/-! ### Claims about the emit pass and the driver -/

/-- Claim C4: A compile pass with a non-empty diagnostics list logs every
diagnostic, throws the single aggregate failure, returns no artifact list,
and persists nothing to the cache store. -/
theorem c4_exhaustive_diagnostics (store : CacheStore) (inputFiles : List String)
    (opts : TsOptions) (fs hash : String → String) (writes : List WriteEvent)
    (diags : List String) (hd : diags ≠ []) :
    (runEmit store inputFiles opts fs hash writes diags).result =
      Except.error "Declaration generation failed." ∧
    (runEmit store inputFiles opts fs hash writes diags).loggedDiags = diags ∧
    (runEmit store inputFiles opts fs hash writes diags).store = store := by
  simp only [runEmit, if_neg hd]
  exact ⟨trivial, trivial, trivial⟩

/-- Witness for `c4_exhaustive_diagnostics` on a failing run with three
diagnostics. -/
theorem c4_exhaustive_diagnostics_witness :
    (["e1", "e2", "e3"] : List String) ≠ [] ∧
    ((runEmit [("k", [])] ["a.ts"] sampleOpts sampleFs id []
        ["e1", "e2", "e3"]).result = Except.error "Declaration generation failed." ∧
    (runEmit [("k", [])] ["a.ts"] sampleOpts sampleFs id []
        ["e1", "e2", "e3"]).loggedDiags = ["e1", "e2", "e3"] ∧
    (runEmit [("k", [])] ["a.ts"] sampleOpts sampleFs id []
        ["e1", "e2", "e3"]).store = [("k", [])]) :=
  ⟨by decide,
    c4_exhaustive_diagnostics [("k", [])] ["a.ts"] sampleOpts sampleFs id []
      ["e1", "e2", "e3"] (by decide)⟩

/-- Claim C8: Truthy `declaration` together with `noEmit === true` makes the
driver warn and return the empty output without invoking the compiler and
without touching the store. -/
theorem c8_noemit_short_circuit (inputFiles : List String) (cwd : String)
    (tc : Tsconfig) (dev enableCache : Bool) (tscCacheDir : String)
    (fs hash : String → String) (store : CacheStore) (writes : List WriteEvent)
    (diags : List String) (he : tc.errors = [])
    (hdecl : tc.options.declaration = some true)
    (hnoemit : tc.options.noEmit = some true) :
    getDeclarations inputFiles cwd (some tc) dev enableCache tscCacheDir fs hash
        store writes diags =
      ⟨Except.ok [], store, [], [], true, false⟩ := by
  simp [getDeclarations, he, hdecl, hnoemit]

/-- Witness for `c8_noemit_short_circuit` on a concrete conflicting
configuration. -/
theorem c8_noemit_short_circuit_witness :
    (Tsconfig.mk [] ⟨some true, some true, none, none, none, "/p", [], ""⟩).options.noEmit
        = some true ∧
    getDeclarations ["a.ts"] "/p"
        (some (Tsconfig.mk [] ⟨some true, some true, none, none, none, "/p", [], ""⟩))
        false true "/p/cache" sampleFs id [] [] [] =
      ⟨Except.ok [], [], [], [], true, false⟩ :=
  ⟨rfl,
    c8_noemit_short_circuit ["a.ts"] "/p"
      (Tsconfig.mk [] ⟨some true, some true, none, none, none, "/p", [], ""⟩)
      false true "/p/cache" sampleFs id [] [] [] rfl rfl rfl⟩

/-! ### The cache-key string scheme (C5) -/

/-- Splitting at a separator character absent from both left parts is
unambiguous. -/
theorem colon_sep_inj : ∀ (l1 l2 r1 r2 : List Char), ':' ∉ l1 → ':' ∉ l2 →
    l1 ++ ':' :: r1 = l2 ++ ':' :: r2 → l1 = l2 ∧ r1 = r2 := by
  intro l1
  induction l1 with
  | nil =>
    intro l2 r1 r2 _ h2 h
    cases l2 with
    | nil => simpa using h
    | cons c t =>
      simp only [List.nil_append, List.cons_append, List.cons.injEq] at h
      exact absurd (h.1 ▸ List.mem_cons_self c t) h2
  | cons c1 t1 ih =>
    intro l2 r1 r2 h1 h2 h
    cases l2 with
    | nil =>
      simp only [List.nil_append, List.cons_append, List.cons.injEq] at h
      exact absurd (h.1 ▸ List.mem_cons_self c1 t1) (fun hm => h1 hm)
    | cons c2 t2 =>
      simp only [List.cons_append, List.cons.injEq] at h
      obtain ⟨hc, ht⟩ := h
      have h1' : ':' ∉ t1 := fun hm => h1 (List.mem_cons_of_mem _ hm)
      have h2' : ':' ∉ t2 := fun hm => h2 (List.mem_cons_of_mem _ hm)
      obtain ⟨e1, e2⟩ := ih t2 r1 r2 h1' h2' ht
      exact ⟨by rw [hc, e1], e2⟩

/-- Claim C5: The cache key is the ordered `':'`-joined concatenation of the
absolute path, the content hash and the serialized configuration, and —
provided the hash values involved are colon-free and collision-free — two
invocations give the same key for a file iff neither the file's content nor
the serialized configuration changed; in particular a configuration change
changes every key. -/
theorem c5_cache_key_scheme (fs fs' : String → String) (cfg cfg' : String)
    (hash : String → String) (f : String)
    (hc : ':' ∉ (hash (fs f)).data) (hc' : ':' ∉ (hash (fs' f)).data)
    (hinj : hash (fs f) = hash (fs' f) → fs f = fs' f) :
    mkCacheKey fs cfg hash f = f ++ ":" ++ hash (fs f) ++ ":" ++ cfg ∧
    (mkCacheKey fs cfg hash f = mkCacheKey fs' cfg' hash f ↔
      (fs f = fs' f ∧ cfg = cfg')) ∧
    (cfg ≠ cfg' → mkCacheKey fs cfg hash f ≠ mkCacheKey fs' cfg' hash f) := by
  have hiff : mkCacheKey fs cfg hash f = mkCacheKey fs' cfg' hash f ↔
      (fs f = fs' f ∧ cfg = cfg') := by
    constructor
    · intro h
      have hd := congrArg String.data h
      simp only [mkCacheKey, String.data_append,
        show (":" : String).data = [':'] from rfl, List.append_assoc,
        List.singleton_append] at hd
      have hd2 := List.append_cancel_left hd
      have hd3 : (hash (fs f)).data ++ ':' :: cfg.data =
          (hash (fs' f)).data ++ ':' :: cfg'.data := by
        simpa using hd2
      obtain ⟨e1, e2⟩ := colon_sep_inj _ _ _ _ hc hc' hd3
      exact ⟨hinj (String.ext e1), String.ext e2⟩
    · rintro ⟨h1, h2⟩
      simp [mkCacheKey, h1, h2]
  exact ⟨rfl, hiff, fun hne heq => hne (hiff.mp heq).2⟩

/-- Witness for `c5_cache_key_scheme`: concrete contents and configurations,
with the identity hash (collision-free and colon-free on these contents). -/
theorem c5_cache_key_scheme_witness :
    (':' ∉ (id ((fun _ => "abc") "f.ts") : String).data) ∧
    (mkCacheKey (fun _ => "abc") "X" id "f.ts" =
        "f.ts" ++ ":" ++ id ((fun _ => "abc") "f.ts") ++ ":" ++ "X" ∧
    (mkCacheKey (fun _ => "abc") "X" id "f.ts" =
        mkCacheKey (fun _ => "abd") "Y" id "f.ts" ↔
      ((fun _ => "abc") "f.ts" = (fun _ => "abd") "f.ts" ∧ "X" = "Y")) ∧
    (("X" : String) ≠ "Y" →
      mkCacheKey (fun _ => "abc") "X" id "f.ts" ≠
        mkCacheKey (fun _ => "abd") "Y" id "f.ts")) :=
  ⟨by decide,
    c5_cache_key_scheme (fun _ => "abc") (fun _ => "abd") "X" "Y" id "f.ts"
      (by decide) (by decide) (fun h => h)⟩

/-! ### Alias filtering (C7) -/

theorem incrementalDefaultOptions_paths (e : Bool) (d : String) (o : TsOptions) :
    (incrementalDefaultOptions e d o).paths = o.paths := by
  unfold incrementalDefaultOptions; split <;> rfl

theorem devDefaultOptions_paths (dev : Bool) (o : TsOptions) :
    (devDefaultOptions dev o).paths = o.paths := by
  unfold devDefaultOptions; split <;> rfl

theorem devDefaultOptions_base (dev : Bool) (o : TsOptions) :
    (devDefaultOptions dev o).pathsBasePath = o.pathsBasePath := by
  unfold devDefaultOptions; split <;> rfl

theorem sanitizePaths_paths (cwd : String) (o : TsOptions) :
    (sanitizePaths cwd o).paths =
      o.paths.filter fun p =>
        strStartsWith (winPath (pathResolve o.pathsBasePath (p.2.headD "")))
          (winPath cwd ++ "/") := rfl

/-- In a list with unique keys (a JS object), the value at a key is unique. -/
theorem assoc_value_unique {α : Type} : ∀ (l : List (String × α)) (a : String)
    (b c : α), (l.map Prod.fst).Nodup → (a, b) ∈ l → (a, c) ∈ l → b = c := by
  intro l
  induction l with
  | nil => intro a b c _ h; simp at h
  | cons p rest ih =>
    intro a b c hnd h1 h2
    simp only [List.map_cons, List.nodup_cons] at hnd
    rcases List.mem_cons.mp h1 with e1 | m1 <;> rcases List.mem_cons.mp h2 with e2 | m2
    · rw [← e1] at e2
      exact (Prod.mk.injEq _ _ _ _ ▸ e2.symm).2
    · have ha : p.1 = a := by rw [← e1]
      rw [ha] at hnd
      exact absurd (List.mem_map.mpr ⟨(a, c), m2, rfl⟩) hnd.1
    · have ha : p.1 = a := by rw [← e2]
      rw [ha] at hnd
      exact absurd (List.mem_map.mpr ⟨(a, b), m1, rfl⟩) hnd.1
    · exact ih a b c hnd.2 m1 m2

/-- Claim C7: An alias whose first target resolves outside the project root is
absent from the resolved configuration used for compilation and for cache-key
serialization (the `resolvedOptions` the driver hands to `runEmit`). -/
theorem c7_alias_filtering (cwd : String) (dev enableCache : Bool)
    (tscCacheDir : String) (o : TsOptions) (item : String) (targets : List String)
    (hnodup : (o.paths.map Prod.fst).Nodup)
    (hmem : (item, targets) ∈ o.paths)
    (hout : strStartsWith (winPath (pathResolve o.pathsBasePath (targets.headD "")))
        (winPath cwd ++ "/") = false) :
    item ∉ (resolvedOptions cwd dev enableCache tscCacheDir o).paths.map Prod.fst := by
  intro hin
  rw [resolvedOptions, incrementalDefaultOptions_paths, sanitizePaths_paths,
    devDefaultOptions_paths, devDefaultOptions_base] at hin
  obtain ⟨p, hp, hfst⟩ := List.mem_map.mp hin
  obtain ⟨hpmem, hpred⟩ := List.mem_filter.mp hp
  have hpe : p = (item, p.2) := by
    rw [← hfst]
  have h2 : p.2 = targets := by
    apply assoc_value_unique o.paths item p.2 targets hnodup _ hmem
    rw [← hpe]; exact hpmem
  rw [hpe, h2] at hpred
  simp only [hout] at hpred
  exact Bool.noConfusion hpred

/-- Witness for `c7_alias_filtering`: `@out -> ../x` resolves to `/x`,
outside the root `/p`, and is filtered out while `@in -> src/y` stays. -/
theorem c7_alias_filtering_witness :
    strStartsWith
        (winPath (pathResolve "/p" ((["../x"] : List String).headD "")))
        (winPath "/p" ++ "/") = false ∧
    "@out" ∉ (resolvedOptions "/p" false true "/p/cache"
        ⟨some true, none, none, none, none, "/p",
          [("@out", ["../x"]), ("@in", ["src/y"])], ""⟩).paths.map Prod.fst :=
  ⟨by decide,
    c7_alias_filtering "/p" false true "/p/cache"
      ⟨some true, none, none, none, none, "/p",
        [("@out", ["../x"]), ("@in", ["src/y"])], ""⟩
      "@out" ["../x"] (by decide) (by decide) (by decide)⟩

/-! ### The dedup invariant (C1) -/

theorem str_beq_symm (a b : String) : (a == b) = (b == a) := by
  by_cases h : a = b
  · simp [h]
  · simp [beq_eq_false_iff_ne, h, Ne.symm h]

theorem pair_beq_symm (f1 s1 f2 s2 : String) :
    (f1 == f2 && s1 == s2) = (f2 == f1 && s2 == s1) := by
  rw [str_beq_symm f1 f2, str_beq_symm s1 s2]

theorem pairMem_upsert (ret : Artifact) (fl src : String) : ∀ out : List Artifact,
    pairMem fl src (upsert out ret) =
      (pairMem fl src out || (ret.file == fl && ret.sourceFile == src)) := by
  intro out
  induction out with
  | nil => simp [upsert, pairMem]
  | cons a rest ih =>
    simp only [upsert]
    by_cases c : (a.file == ret.file && a.sourceFile == ret.sourceFile) = true
    · rw [if_pos c]
      simp only [Bool.and_eq_true, beq_iff_eq] at c
      simp only [pairMem, c.1, c.2]
      cases hx : (ret.file == fl && ret.sourceFile == src) <;>
        simp [hx, Bool.or_comm, Bool.or_assoc, Bool.or_left_comm]
    · rw [if_neg c]
      simp only [pairMem, ih, Bool.or_assoc]

theorem distinctPairs_upsert (ret : Artifact) : ∀ out : List Artifact,
    distinctPairs out = true → distinctPairs (upsert out ret) = true := by
  intro out
  induction out with
  | nil => intro _; simp [upsert, distinctPairs, pairMem]
  | cons a rest ih =>
    intro h
    simp only [distinctPairs, Bool.and_eq_true, Bool.not_eq_true'] at h
    obtain ⟨h1, h2⟩ := h
    simp only [upsert]
    by_cases c : (a.file == ret.file && a.sourceFile == ret.sourceFile) = true
    · rw [if_pos c]
      simp only [Bool.and_eq_true, beq_iff_eq] at c
      simp only [distinctPairs, Bool.and_eq_true, Bool.not_eq_true']
      exact ⟨by rw [← c.1, ← c.2]; exact h1, h2⟩
    · rw [if_neg c]
      simp only [distinctPairs, Bool.and_eq_true, Bool.not_eq_true']
      refine ⟨?_, ih h2⟩
      rw [pairMem_upsert, h1]
      rw [Bool.not_eq_true] at c
      rw [pair_beq_symm] at c
      simp [c]

/-- Every write processed through the sink preserves pair-distinctness of the
`output` collection (the upsert replaces in place or appends a fresh pair). -/
theorem foldl_writeFile_distinctPairs (inputFiles : List String)
    (cacheKeys : List (String × String)) (opts : TsOptions)
    (fs hash : String → String) : ∀ (ws : List WriteEvent) (st : InterceptState),
    distinctPairs st.output = true →
    distinctPairs
      ((List.foldl (writeFile inputFiles cacheKeys opts fs hash) st ws)).output
      = true := by
  intro ws
  induction ws with
  | nil => intro st h; exact h
  | cons w rest ih =>
    intro st h
    simp only [List.foldl_cons]
    apply ih
    by_cases hb : opts.tsBuildInfoFile = some w.fileName
    · rw [writeFile_buildInfo _ _ _ _ _ _ _ hb]; exact h
    · cases hs : w.sourceFile with
      | none => rw [writeFile_unattributed _ _ _ _ _ _ _ hb hs]; exact h
      | some s =>
        rw [writeFile_attributed _ _ _ _ _ _ _ s hb hs]
        by_cases hm : memB inputFiles s = true
        · simpa [hm] using distinctPairs_upsert _ st.output h
        · rw [Bool.not_eq_true] at hm
          simpa [hm] using h

/-- The two writes of the C1 counterexample: the same
`(output name, source file)` pair emitted twice in one pass. -/
def c1writes : List WriteEvent :=
  [⟨"/p/es/a.d.ts", "first", some "a.ts"⟩, ⟨"/p/es/a.d.ts", "second", some "a.ts"⟩]

/-- First emit call of the C1 counterexample, from an empty cache store. -/
def c1run1 : EmitOutcome := runEmit [] ["a.ts"] sampleOpts sampleFs id c1writes []

/-- Second emit call: same input, content and configuration; the compiler
(incremental) re-emits nothing, so the output is seeded purely from cache. -/
def c1run2 : EmitOutcome := runEmit c1run1.store ["a.ts"] sampleOpts sampleFs id [] []

set_option maxRecDepth 100000 in
/-- Claim C1, counterexample: The cache entry stores both duplicate-pair
artifacts (the append at source line 156 never deduplicates), so the next
emit call seeds an `OutputCollection` holding the same
`(file, sourceFile)` pair twice: the claimed invariant fails for entries
seeded from cache hits. -/
theorem c1_counterexample :
    isOkB c1run1.result = true ∧
    distinctPairs (outputOf c1run1) = true ∧
    isOkB c1run2.result = true ∧
    distinctPairs (outputOf c1run2) = false := by
  refine ⟨?_, ?_, ?_, ?_⟩ <;> rfl

/-- Claim C1, amended: Within one emit call, artifacts contributed through
interceptor writes keep at most one entry per `(file, sourceFile)` pair: if
the cache-seeded portion of the collection is pair-distinct, the returned
`OutputCollection` is pair-distinct.  (Entries seeded from cache hits are
appended verbatim, so the invariant extends to them only under this
hypothesis — it can fail when a cache entry itself holds duplicate pairs, as
`c1_counterexample` shows.) -/
theorem c1_amended_dedup (store : CacheStore) (inputFiles : List String)
    (opts : TsOptions) (fs hash : String → String) (writes : List WriteEvent)
    (diags : List String)
    (hseed : distinctPairs
        (seedOutput store
          (cacheKeysOf inputFiles fs (serializeOptions opts) hash) inputFiles)
        = true) :
    distinctPairs (outputOf (runEmit store inputFiles opts fs hash writes diags))
      = true := by
  by_cases hd : diags = []
  · subst hd
    simp only [runEmit, if_pos rfl, outputOf]
    exact foldl_writeFile_distinctPairs _ _ _ _ _ writes
      ⟨seedOutput store
        (cacheKeysOf inputFiles fs (serializeOptions opts) hash) inputFiles,
        [], []⟩ hseed
  · simp only [runEmit, if_neg hd, outputOf]
    rfl

set_option maxRecDepth 100000 in
/-- Witness for `c1_amended_dedup`: a seeded entry and two fresh writes, the
second overwriting the first in place. -/
theorem c1_amended_dedup_witness :
    distinctPairs
        (seedOutput [(mkCacheKey sampleFs (serializeOptions sampleOpts) id "a.ts",
            [⟨"a.d.ts", "old", "a.ts"⟩])]
          (cacheKeysOf ["a.ts"] sampleFs (serializeOptions sampleOpts) id)
          ["a.ts"]) = true ∧
    distinctPairs
        (outputOf (runEmit
          [(mkCacheKey sampleFs (serializeOptions sampleOpts) id "a.ts",
            [⟨"a.d.ts", "old", "a.ts"⟩])]
          ["a.ts"] sampleOpts sampleFs id c1writes [])) = true :=
  ⟨by rfl,
    c1_amended_dedup
      [(mkCacheKey sampleFs (serializeOptions sampleOpts) id "a.ts",
        [⟨"a.d.ts", "old", "a.ts"⟩])]
      ["a.ts"] sampleOpts sampleFs id c1writes [] (by rfl)⟩

/-! ### Supporting lemmas for the idempotence analysis (C6) -/

theorem writeSource_eq (w : WriteEvent) (s : String) (h : w.sourceFile = some s) :
    writeSource w = s := by
  simp [writeSource, h]

theorem pairMem_append (fl src : String) : ∀ l1 l2 : List Artifact,
    pairMem fl src (l1 ++ l2) = (pairMem fl src l1 || pairMem fl src l2) := by
  intro l1 l2
  induction l1 with
  | nil => simp [pairMem]
  | cons a t ih => simp [pairMem, ih, Bool.or_assoc]

theorem upsert_of_pairMem_false (ret : Artifact) : ∀ out : List Artifact,
    pairMem ret.file ret.sourceFile out = false → upsert out ret = out ++ [ret] := by
  intro out
  induction out with
  | nil => intro _; rfl
  | cons a t ih =>
    intro h
    simp only [pairMem, Bool.or_eq_false_iff] at h
    obtain ⟨h1, h2⟩ := h
    simp only [upsert, h1]
    rw [if_neg Bool.false_ne_true]
    simp only [List.cons_append, List.cons.injEq, true_and]
    exact ih h2

theorem memB_eq_false_of_not_mem (a : String) : ∀ l : List String,
    a ∉ l → memB l a = false := by
  intro l
  induction l with
  | nil => intro _; rfl
  | cons x t ih =>
    intro h
    have hx : ¬(a = x) := fun e => h (e ▸ List.mem_cons_self x t)
    have ht : a ∉ t := fun e => h (List.mem_cons_of_mem _ e)
    simp only [memB, ih ht, Bool.or_false]
    exact beq_eq_false_iff_ne.mpr (fun e => hx e.symm)

theorem assocLookup_cacheKeysOf_mem (fs : String → String) (cfg : String)
    (hash : String → String) (f : String) : ∀ inputFiles : List String,
    f ∈ inputFiles →
    assocLookup (cacheKeysOf inputFiles fs cfg hash) f =
      some (mkCacheKey fs cfg hash f) := by
  intro inputFiles
  induction inputFiles with
  | nil => intro h; simp at h
  | cons g t ih =>
    intro h
    simp only [cacheKeysOf, List.map_cons, assocLookup]
    by_cases hg : g = f
    · subst hg; simp
    · rw [if_neg (by simpa using hg)]
      rcases List.mem_cons.mp h with e | m
      · exact absurd e.symm hg
      · exact ih m

theorem seedOutput_foldl_aux (store : CacheStore) (keys : List (String × String)) :
    ∀ (ins : List String) (acc : List Artifact),
    List.foldl
      (fun out f =>
        out ++ ((assocLookup keys f).bind fun k => assocLookup store k).getD [])
      acc ins =
      acc ++ (ins.map fun f =>
        ((assocLookup keys f).bind fun k => assocLookup store k).getD []).flatten := by
  intro ins
  induction ins with
  | nil => intro acc; simp
  | cons f t ih =>
    intro acc
    simp only [List.foldl_cons, List.map_cons, List.flatten_cons]
    rw [ih]
    simp [List.append_assoc]

theorem seedOutput_eq_flatten (store : CacheStore) (keys : List (String × String))
    (ins : List String) :
    seedOutput store keys ins =
      (ins.map fun f =>
        ((assocLookup keys f).bind fun k => assocLookup store k).getD []).flatten := by
  rw [seedOutput, seedOutput_foldl_aux]
  simp

theorem seedOutput_empty_store (keys : List (String × String)) (ins : List String) :
    seedOutput [] keys ins = [] := by
  rw [seedOutput_eq_flatten]
  induction ins with
  | nil => rfl
  | cons f t ih =>
    simp only [List.map_cons, List.flatten_cons]
    rw [show ((assocLookup keys f).bind fun k =>
        assocLookup ([] : CacheStore) k).getD [] = [] from ?_]
    · simpa using ih
    · cases assocLookup keys f <;> rfl

theorem lookupD_nil (k : String) : lookupD [] k = [] := rfl

theorem lookupD_cons (k0 : String) (v0 : List Artifact) (t : CacheStore) (k : String) :
    lookupD ((k0, v0) :: t) k = if k0 == k then v0 else lookupD t k := by
  simp only [lookupD, assocLookup]
  by_cases h : k0 = k
  · subst h; simp
  · simp [beq_eq_false_iff_ne.mpr h]

theorem appendAt_lookupD (a : Artifact) (k k' : String) : ∀ m : CacheStore,
    lookupD (appendAt m k' a) k = lookupD m k ++ (if k' == k then [a] else []) := by
  intro m
  induction m with
  | nil =>
    simp only [appendAt, lookupD_cons, lookupD_nil, List.nil_append]
  | cons e t ih =>
    obtain ⟨k0, l0⟩ := e
    simp only [appendAt]
    by_cases h0 : k0 = k'
    · subst h0
      rw [if_pos (by simp)]
      simp only [lookupD_cons]
      by_cases hk : k0 = k
      · subst hk; simp
      · simp [beq_eq_false_iff_ne.mpr hk]
    · rw [if_neg (by simpa using h0)]
      simp only [lookupD_cons]
      by_cases hk : k0 = k
      · subst hk
        have b2 : (k' == k0) = false :=
          beq_eq_false_iff_ne.mpr (fun e' => h0 e'.symm)
        simp [b2]
      · simp only [beq_eq_false_iff_ne.mpr hk, if_false]
        exact ih

theorem assocLookup_eq_none_of_not_mem {α : Type} (k : String) :
    ∀ m : List (String × α), k ∉ m.map Prod.fst → assocLookup m k = none := by
  intro m
  induction m with
  | nil => intro _; rfl
  | cons e t ih =>
    intro h
    simp only [List.map_cons, List.mem_cons, not_or] at h
    simp only [assocLookup]
    rw [if_neg (by simpa using fun e' => h.1 e'.symm)]
    exact ih h.2

theorem storeSet_lookupD (v : List Artifact) (k k' : String) : ∀ st : CacheStore,
    lookupD (storeSet st k' v) k = if k' == k then v else lookupD st k := by
  intro st
  induction st with
  | nil =>
    simp only [storeSet, lookupD_cons, lookupD_nil]
  | cons e t ih =>
    obtain ⟨k0, v0⟩ := e
    simp only [storeSet]
    by_cases h0 : k0 = k'
    · subst h0
      rw [if_pos (by simp)]
      simp only [lookupD_cons]
      by_cases hk : k0 = k
      · subst hk; simp
      · simp [beq_eq_false_iff_ne.mpr hk]
    · rw [if_neg (by simpa using h0)]
      simp only [lookupD_cons]
      by_cases hk : k0 = k
      · subst hk
        have b2 : (k' == k0) = false :=
          beq_eq_false_iff_ne.mpr (fun e' => h0 e'.symm)
        simp [b2]
      · simp only [beq_eq_false_iff_ne.mpr hk, if_false]
        exact ih

theorem persist_lookupD : ∀ (entries : CacheStore) (store : CacheStore) (k : String),
    (entries.map Prod.fst).Nodup →
    lookupD (persistCache store entries) k =
      (assocLookup entries k).getD (lookupD store k) := by
  intro entries
  induction entries with
  | nil => intro store k _; rfl
  | cons e es ih =>
    intro store k hnd
    obtain ⟨k0, v0⟩ := e
    simp only [List.map_cons, List.nodup_cons] at hnd
    simp only [persistCache, List.foldl_cons]
    have hrec := ih (storeSet store k0 v0) k hnd.2
    simp only [persistCache] at hrec
    rw [hrec, storeSet_lookupD]
    simp only [assocLookup]
    by_cases h0 : k0 = k
    · subst h0
      rw [assocLookup_eq_none_of_not_mem _ _ hnd.1]
      simp
    · simp [beq_eq_false_iff_ne.mpr h0]

theorem appendAt_keys_sub (k : String) (a : Artifact) : ∀ (m : CacheStore)
    (x : String), x ∈ (appendAt m k a).map Prod.fst → x ∈ m.map Prod.fst ∨ x = k := by
  intro m
  induction m with
  | nil =>
    intro x hx
    simp only [appendAt, List.map_cons, List.map_nil, List.mem_cons,
      List.not_mem_nil, or_false] at hx
    right; exact hx
  | cons e t ih =>
    intro x hx
    obtain ⟨k0, v0⟩ := e
    simp only [appendAt] at hx
    by_cases h0 : k0 = k
    · rw [if_pos (by simpa using h0)] at hx
      left; simpa using hx
    · rw [if_neg (by simpa using h0)] at hx
      simp only [List.map_cons, List.mem_cons] at hx ⊢
      rcases hx with e1 | m1
      · left; left; exact e1
      · rcases ih x m1 with h | h
        · left; right; exact h
        · right; exact h

theorem appendAt_keys_nodup (k : String) (a : Artifact) : ∀ m : CacheStore,
    (m.map Prod.fst).Nodup → ((appendAt m k a).map Prod.fst).Nodup := by
  intro m
  induction m with
  | nil => intro _; simp [appendAt]
  | cons e t ih =>
    intro h
    obtain ⟨k0, v0⟩ := e
    simp only [List.map_cons, List.nodup_cons] at h
    simp only [appendAt]
    by_cases h0 : k0 = k
    · rw [if_pos (by simpa using h0)]
      simp only [List.map_cons, List.nodup_cons]
      exact h
    · rw [if_neg (by simpa using h0)]
      simp only [List.map_cons, List.nodup_cons]
      refine ⟨?_, ih h.2⟩
      intro hx
      rcases appendAt_keys_sub k a t k0 hx with hh | hh
      · exact h.1 hh
      · exact h0 hh

theorem foldl_writeFile_cacheRets_nodup (inputFiles : List String)
    (cacheKeys : List (String × String)) (opts : TsOptions)
    (fs hash : String → String) : ∀ (ws : List WriteEvent) (st : InterceptState),
    (st.cacheRets.map Prod.fst).Nodup →
    (((List.foldl (writeFile inputFiles cacheKeys opts fs hash) st ws)).cacheRets.map
      Prod.fst).Nodup := by
  intro ws
  induction ws with
  | nil => intro st h; exact h
  | cons w rest ih =>
    intro st h
    simp only [List.foldl_cons]
    apply ih
    by_cases hb : opts.tsBuildInfoFile = some w.fileName
    · rw [writeFile_buildInfo _ _ _ _ _ _ _ hb]; exact h
    · cases hs : w.sourceFile with
      | none => rw [writeFile_unattributed _ _ _ _ _ _ _ hb hs]; exact h
      | some s =>
        rw [writeFile_attributed _ _ _ _ _ _ _ s hb hs]
        exact appendAt_keys_nodup _ _ _ h

/-- Characterization of the `output` collection after a pass of attributable,
pairwise-distinct writes: each write whose source is an input is appended in
write order. -/
theorem foldl_writeFile_output_char (inputFiles : List String)
    (cacheKeys : List (String × String)) (opts : TsOptions)
    (fs hash : String → String) : ∀ (ws : List WriteEvent) (st : InterceptState),
    (∀ w ∈ ws, w.sourceFile.isSome = true) →
    (∀ w ∈ ws, opts.tsBuildInfoFile ≠ some w.fileName) →
    ((ws.map fun w => (basename w.fileName, writeSource w))).Nodup →
    (∀ w ∈ ws, pairMem (basename w.fileName) (writeSource w) st.output = false) →
    (List.foldl (writeFile inputFiles cacheKeys opts fs hash) st ws).output =
      st.output ++ (ws.map retOf).filter (fun r => memB inputFiles r.sourceFile) := by
  intro ws
  induction ws with
  | nil => intro st _ _ _ _; simp
  | cons w rest ih =>
    intro st hA hN hP hD
    have hbs : opts.tsBuildInfoFile ≠ some w.fileName := hN w (List.mem_cons_self _ _)
    have hsi : w.sourceFile.isSome = true := hA w (List.mem_cons_self _ _)
    obtain ⟨s, hs⟩ : ∃ s, w.sourceFile = some s := by
      cases hq : w.sourceFile with
      | none => rw [hq] at hsi; exact absurd hsi (by simp)
      | some x => exact ⟨x, rfl⟩
    have hws : writeSource w = s := writeSource_eq w s hs
    simp only [List.foldl_cons]
    rw [writeFile_attributed _ _ _ _ _ _ _ s hbs hs]
    simp only [List.map_cons, List.nodup_cons] at hP
    have hD0 : pairMem (basename w.fileName) s st.output = false := by
      have hd := hD w (List.mem_cons_self _ _); rwa [hws] at hd
    have hretw : retOf w = ⟨basename w.fileName, w.content, s⟩ := by
      simp [retOf, hws]
    have hDrest : ∀ w' ∈ rest,
        pairMem (basename w'.fileName) (writeSource w')
          (st.output ++ [(⟨basename w.fileName, w.content, s⟩ : Artifact)]) = false := by
      intro w' hw'
      rw [pairMem_append, hD w' (List.mem_cons_of_mem _ hw')]
      simp only [Bool.false_or, pairMem, Bool.or_false]
      have hne : ¬(basename w.fileName = basename w'.fileName ∧ s = writeSource w') := by
        rintro ⟨e1, e2⟩
        exact hP.1 (List.mem_map.mpr ⟨w', hw', by rw [← e1, ← e2, hws]⟩)
      by_cases e1 : basename w.fileName = basename w'.fileName
      · by_cases e2 : s = writeSource w'
        · exact absurd ⟨e1, e2⟩ hne
        · simp [beq_eq_false_iff_ne.mpr e2]
      · simp [beq_eq_false_iff_ne.mpr e1]
    by_cases hm : memB inputFiles s = true
    · rw [if_pos hm, upsert_of_pairMem_false _ _ hD0]
      rw [ih _ (fun w' hw' => hA w' (List.mem_cons_of_mem _ hw'))
        (fun w' hw' => hN w' (List.mem_cons_of_mem _ hw')) hP.2 hDrest]
      simp only [List.map_cons, List.filter_cons, hretw, hm]
      simp [List.append_assoc]
    · rw [Bool.not_eq_true] at hm
      simp only [hm]
      rw [if_neg Bool.false_ne_true]
      rw [ih ⟨st.output,
          appendAt st.cacheRets
            ((assocLookup cacheKeys s).getD
              (mkCacheKey fs (serializeOptions opts) hash s))
            ⟨basename w.fileName, w.content, s⟩,
          st.buildInfoWrites⟩
        (fun w' hw' => hA w' (List.mem_cons_of_mem _ hw'))
        (fun w' hw' => hN w' (List.mem_cons_of_mem _ hw')) hP.2
        (fun w' hw' => hD w' (List.mem_cons_of_mem _ hw'))]
      simp only [List.map_cons, List.filter_cons, hretw, hm]
      rw [if_neg Bool.false_ne_true]

/-- Characterization of a cache entry after a pass of attributable writes:
the artifacts of the writes whose cache key equals the entry's key, in write
order. -/
theorem foldl_writeFile_cacheRets_char (inputFiles : List String)
    (opts : TsOptions) (fs hash : String → String) (k : String) :
    ∀ (ws : List WriteEvent) (st : InterceptState),
    (∀ w ∈ ws, w.sourceFile.isSome = true) →
    (∀ w ∈ ws, opts.tsBuildInfoFile ≠ some w.fileName) →
    lookupD (List.foldl (writeFile inputFiles
        (cacheKeysOf inputFiles fs (serializeOptions opts) hash) opts fs hash)
        st ws).cacheRets k =
      lookupD st.cacheRets k ++
        (ws.map retOf).filter
          (fun r => mkCacheKey fs (serializeOptions opts) hash r.sourceFile == k) := by
  intro ws
  induction ws with
  | nil => intro st _ _; simp
  | cons w rest ih =>
    intro st hA hN
    have hbs : opts.tsBuildInfoFile ≠ some w.fileName := hN w (List.mem_cons_self _ _)
    have hsi : w.sourceFile.isSome = true := hA w (List.mem_cons_self _ _)
    obtain ⟨s, hs⟩ : ∃ s, w.sourceFile = some s := by
      cases hq : w.sourceFile with
      | none => rw [hq] at hsi; exact absurd hsi (by simp)
      | some x => exact ⟨x, rfl⟩
    have hws : writeSource w = s := writeSource_eq w s hs
    have hretw : retOf w = ⟨basename w.fileName, w.content, s⟩ := by
      simp [retOf, hws]
    simp only [List.foldl_cons]
    rw [writeFile_attributed _ _ _ _ _ _ _ s hbs hs]
    rw [ih _ (fun w' hw' => hA w' (List.mem_cons_of_mem _ hw'))
      (fun w' hw' => hN w' (List.mem_cons_of_mem _ hw'))]
    rw [show (assocLookup (cacheKeysOf inputFiles fs (serializeOptions opts) hash)
        s).getD (mkCacheKey fs (serializeOptions opts) hash s) =
      mkCacheKey fs (serializeOptions opts) hash s from
      assocLookup_cacheKeysOf_getD inputFiles fs (serializeOptions opts) hash s]
    rw [appendAt_lookupD]
    simp only [List.map_cons, List.filter_cons, hretw]
    by_cases hc : (mkCacheKey fs (serializeOptions opts) hash s == k) = true
    · simp [hc, List.append_assoc]
    · rw [Bool.not_eq_true] at hc
      simp [hc]

theorem filter_const_false : ∀ l : List Artifact, l.filter (fun _ => false) = [] := by
  intro l
  induction l with
  | nil => rfl
  | cons a t ih => simpa [List.filter_cons] using ih

theorem filter_or_perm (l : List Artifact) (p q : Artifact → Bool)
    (hdisj : ∀ a ∈ l, p a = true → q a = false) :
    List.Perm (l.filter fun a => p a || q a) (l.filter p ++ l.filter q) := by
  induction l with
  | nil => exact List.Perm.refl _
  | cons a t ih =>
    have ih' := ih (fun x hx hpx => hdisj x (List.mem_cons_of_mem _ hx) hpx)
    by_cases hp : p a = true
    · have hq : q a = false := hdisj a (List.mem_cons_self _ _) hp
      simp only [List.filter_cons, hp, hq, Bool.or_false, if_true]
      exact List.Perm.cons a ih'
    · rw [Bool.not_eq_true] at hp
      by_cases hq : q a = true
      · simp only [List.filter_cons, hp, hq, Bool.false_or, if_true]
        rw [if_neg Bool.false_ne_true]
        exact List.Perm.trans (List.Perm.cons a ih') List.perm_middle.symm
      · rw [Bool.not_eq_true] at hq
        simp only [List.filter_cons, hp, hq, Bool.or_self]
        rw [if_neg Bool.false_ne_true, if_neg Bool.false_ne_true,
          if_neg Bool.false_ne_true]
        exact ih'

/-- Splitting a filter over a duplicate-free key list into per-key fibers is
a permutation. -/
theorem filter_memB_perm : ∀ (keyList : List String), keyList.Nodup →
    ∀ l : List Artifact,
    List.Perm (l.filter fun a => memB keyList a.sourceFile)
      ((keyList.map fun f => l.filter fun a => a.sourceFile == f).flatten) := by
  intro keyList
  induction keyList with
  | nil =>
    intro _ l
    simp only [List.map_nil, List.flatten_nil]
    rw [show (fun a : Artifact => memB [] a.sourceFile) = (fun _ => false) from rfl,
      filter_const_false]
  | cons f rest ih =>
    intro hnd l
    have hnd' := List.nodup_cons.mp hnd
    rw [show (fun a : Artifact => memB (f :: rest) a.sourceFile) =
      (fun a : Artifact => (f == a.sourceFile) || memB rest a.sourceFile) from rfl]
    have hdisj : ∀ a ∈ l, (f == a.sourceFile) = true → memB rest a.sourceFile = false := by
      intro a _ hfa
      have he : f = a.sourceFile := by simpa using hfa
      rw [← he]
      exact memB_eq_false_of_not_mem f rest hnd'.1
    refine List.Perm.trans (filter_or_perm l _ _ hdisj) ?_
    simp only [List.map_cons, List.flatten_cons]
    refine List.Perm.append ?_ (ih hnd'.2 l)
    rw [List.filter_congr (fun a _ => str_beq_symm f a.sourceFile)]

/-- The write sequence of the C6 scenario: the `a.ts` artifacts emitted
around the `b.ts` artifact. -/
def c6writes : List WriteEvent :=
  [⟨"/p/es/a.d.ts", "ca", some "a.ts"⟩, ⟨"/p/es/b.d.ts", "cb", some "b.ts"⟩,
   ⟨"/p/es/a.d.ts.map", "cm", some "a.ts"⟩]

/-- First emit call of the C6 counterexample: two input files, fresh compile. -/
def c6run1 : EmitOutcome :=
  runEmit [] ["a.ts", "b.ts"] sampleOpts sampleFs id c6writes []

/-- Second emit call with nothing changed and a fully incremental (silent)
compiler pass. -/
def c6run2 : EmitOutcome :=
  runEmit c6run1.store ["a.ts", "b.ts"] sampleOpts sampleFs id [] []

set_option maxRecDepth 400000 in
/-- Claim C6, counterexample: Both calls succeed on unchanged inputs, contents
and configuration, yet the returned collections are not byte-identical: the
first is in compiler write order, the second is regrouped per input file by
the cache seeding, so the entries at index 1 differ. -/
theorem c6_counterexample :
    isOkB c6run1.result = true ∧ isOkB c6run2.result = true ∧
    outputOf c6run1 ≠ outputOf c6run2 := by
  refine ⟨rfl, rfl, ?_⟩
  decide

set_option maxRecDepth 400000 in
/-- Witness data check for the C6 counterexample: the two outputs are
nevertheless permutations of each other, as the amended claim states. -/
theorem c6_permutation_example :
    List.Perm (outputOf c6run2) (outputOf c6run1) := by
  have h : outputOf c6run2 =
      [⟨"a.d.ts", "ca", "a.ts"⟩, ⟨"a.d.ts.map", "cm", "a.ts"⟩,
       ⟨"b.d.ts", "cb", "b.ts"⟩] := by rfl
  have h' : outputOf c6run1 =
      [⟨"a.d.ts", "ca", "a.ts"⟩, ⟨"b.d.ts", "cb", "b.ts"⟩,
       ⟨"a.d.ts.map", "cm", "a.ts"⟩] := by rfl
  rw [h, h']
  refine List.Perm.cons _ ?_
  exact List.Perm.swap _ _ _

theorem lookupD_def (m : CacheStore) (k : String) :
    (assocLookup m k).getD [] = lookupD m k := rfl

theorem runEmit_ok_output (store : CacheStore) (inputFiles : List String)
    (opts : TsOptions) (fs hash : String → String) (ws : List WriteEvent) :
    outputOf (runEmit store inputFiles opts fs hash ws []) =
      (List.foldl
        (writeFile inputFiles (cacheKeysOf inputFiles fs (serializeOptions opts) hash)
          opts fs hash)
        ⟨seedOutput store (cacheKeysOf inputFiles fs (serializeOptions opts) hash)
          inputFiles, [], []⟩ ws).output := rfl

theorem runEmit_ok_store (store : CacheStore) (inputFiles : List String)
    (opts : TsOptions) (fs hash : String → String) (ws : List WriteEvent) :
    (runEmit store inputFiles opts fs hash ws []).store =
      persistCache store
        (List.foldl
          (writeFile inputFiles
            (cacheKeysOf inputFiles fs (serializeOptions opts) hash) opts fs hash)
          ⟨seedOutput store (cacheKeysOf inputFiles fs (serializeOptions opts) hash)
            inputFiles, [], []⟩ ws).cacheRets := rfl

theorem seed_item_of_mem (store : CacheStore) (fs hash : String → String)
    (cfg : String) (inputFiles : List String) (f : String) (hf : f ∈ inputFiles) :
    ((assocLookup (cacheKeysOf inputFiles fs cfg hash) f).bind
        fun k => assocLookup store k).getD [] =
      lookupD store (mkCacheKey fs cfg hash f) := by
  rw [assocLookup_cacheKeysOf_mem fs cfg hash f inputFiles hf]
  rfl

/-- Claim C6, amended: Starting from an empty cache store, if the first emit
call succeeds (no diagnostics) on attributable, pairwise-distinct,
non-colliding writes and the second call — same inputs, contents and
configuration — receives no compiler writes and no diagnostics (the
incremental skip the external compiler provides), then both calls return
successfully and the second `OutputCollection` is a permutation of the first
(identical artifacts, hence identical bytes per artifact; the order may be
regrouped per input file, which is what `c6_counterexample` exhibits). -/
theorem c6_amended_idempotence (inputFiles : List String) (opts : TsOptions)
    (fs hash : String → String) (ws : List WriteEvent)
    (hNodup : inputFiles.Nodup)
    (hA : ∀ w ∈ ws, w.sourceFile.isSome = true)
    (hN : ∀ w ∈ ws, opts.tsBuildInfoFile ≠ some w.fileName)
    (hP : (ws.map fun w => (basename w.fileName, writeSource w)).Nodup)
    (hKeyInj : ∀ w ∈ ws, ∀ f ∈ inputFiles,
      mkCacheKey fs (serializeOptions opts) hash (writeSource w) =
        mkCacheKey fs (serializeOptions opts) hash f → writeSource w = f) :
    (runEmit [] inputFiles opts fs hash ws []).result =
      Except.ok (outputOf (runEmit [] inputFiles opts fs hash ws [])) ∧
    (runEmit (runEmit [] inputFiles opts fs hash ws []).store
        inputFiles opts fs hash [] []).result =
      Except.ok (outputOf (runEmit (runEmit [] inputFiles opts fs hash ws []).store
        inputFiles opts fs hash [] [])) ∧
    List.Perm
      (outputOf (runEmit (runEmit [] inputFiles opts fs hash ws []).store
        inputFiles opts fs hash [] []))
      (outputOf (runEmit [] inputFiles opts fs hash ws [])) := by
  refine ⟨rfl, rfl, ?_⟩
  have e0 : seedOutput []
      (cacheKeysOf inputFiles fs (serializeOptions opts) hash) inputFiles = [] :=
    seedOutput_empty_store _ _
  have hout1 : outputOf (runEmit [] inputFiles opts fs hash ws []) =
      (ws.map retOf).filter (fun r => memB inputFiles r.sourceFile) := by
    rw [runEmit_ok_output, e0]
    rw [foldl_writeFile_output_char _ _ _ _ _ ws ⟨[], [], []⟩ hA hN hP
      (fun w hw => rfl)]
    simp
  have hnodupKeys : (((List.foldl
      (writeFile inputFiles (cacheKeysOf inputFiles fs (serializeOptions opts) hash)
        opts fs hash)
      ⟨[], [], []⟩ ws).cacheRets).map Prod.fst).Nodup :=
    foldl_writeFile_cacheRets_nodup _ _ _ _ _ ws ⟨[], [], []⟩ (by simp)
  have hstore : ∀ k, lookupD ((runEmit [] inputFiles opts fs hash ws []).store) k =
      (ws.map retOf).filter
        (fun r => mkCacheKey fs (serializeOptions opts) hash r.sourceFile == k) := by
    intro k
    rw [runEmit_ok_store, e0]
    rw [persist_lookupD _ _ _ hnodupKeys]
    rw [lookupD_nil, lookupD_def]
    rw [foldl_writeFile_cacheRets_char _ _ _ _ _ ws ⟨[], [], []⟩ hA hN]
    simp [lookupD_nil]
  have hst2 : outputOf (runEmit (runEmit [] inputFiles opts fs hash ws []).store
      inputFiles opts fs hash [] []) =
      seedOutput ((runEmit [] inputFiles opts fs hash ws []).store)
        (cacheKeysOf inputFiles fs (serializeOptions opts) hash) inputFiles := rfl
  have hmapeq : inputFiles.map (fun f =>
      ((assocLookup (cacheKeysOf inputFiles fs (serializeOptions opts) hash) f).bind
        fun k =>
          assocLookup ((runEmit [] inputFiles opts fs hash ws []).store) k).getD []) =
      inputFiles.map (fun f => (ws.map retOf).filter (fun r => r.sourceFile == f)) := by
    apply List.map_congr_left
    intro f hf
    rw [seed_item_of_mem _ _ _ _ _ f hf, hstore]
    apply List.filter_congr
    intro r hr
    obtain ⟨w, hw, hrw⟩ := List.mem_map.mp hr
    have hsw : writeSource w = r.sourceFile := by rw [← hrw]; rfl
    by_cases he : r.sourceFile = f
    · simp [he]
    · have h1 : (r.sourceFile == f) = false := beq_eq_false_iff_ne.mpr he
      have h2 : (mkCacheKey fs (serializeOptions opts) hash r.sourceFile ==
          mkCacheKey fs (serializeOptions opts) hash f) = false := by
        apply beq_eq_false_iff_ne.mpr
        intro hk
        apply he
        have hkey := hKeyInj w hw f hf (by rw [hsw]; exact hk)
        exact hsw ▸ hkey
      rw [h1, h2]
  have hout2 : outputOf (runEmit (runEmit [] inputFiles opts fs hash ws []).store
      inputFiles opts fs hash [] []) =
      (inputFiles.map fun f =>
        (ws.map retOf).filter (fun r => r.sourceFile == f)).flatten := by
    rw [hst2, seedOutput_eq_flatten, hmapeq]
  rw [hout1, hout2]
  exact (filter_memB_perm inputFiles hNodup (ws.map retOf)).symm

set_option maxRecDepth 400000 in
/-- Witness for `c6_amended_idempotence` on the concrete C6 scenario. -/
theorem c6_amended_idempotence_witness :
    (["a.ts", "b.ts"] : List String).Nodup ∧
    ((runEmit [] ["a.ts", "b.ts"] sampleOpts sampleFs id c6writes []).result =
      Except.ok (outputOf (runEmit [] ["a.ts", "b.ts"] sampleOpts sampleFs id
        c6writes [])) ∧
    (runEmit (runEmit [] ["a.ts", "b.ts"] sampleOpts sampleFs id c6writes []).store
        ["a.ts", "b.ts"] sampleOpts sampleFs id [] []).result =
      Except.ok (outputOf (runEmit
        (runEmit [] ["a.ts", "b.ts"] sampleOpts sampleFs id c6writes []).store
        ["a.ts", "b.ts"] sampleOpts sampleFs id [] [])) ∧
    List.Perm
      (outputOf (runEmit
        (runEmit [] ["a.ts", "b.ts"] sampleOpts sampleFs id c6writes []).store
        ["a.ts", "b.ts"] sampleOpts sampleFs id [] []))
      (outputOf (runEmit [] ["a.ts", "b.ts"] sampleOpts sampleFs id c6writes []))) :=
  ⟨by decide,
    c6_amended_idempotence ["a.ts", "b.ts"] sampleOpts sampleFs id c6writes
      (by decide) (by decide) (by decide) (by decide) (by decide)⟩

end FatherDts
